import Mathlib

/-!
Verification of the respirator RESP (Redis Serialization Protocol) decoder,
a shallow embedding of `src/parser.rs` (nom-based, "complete" combinators).

Bytes are modelled as `List Nat` (each element a byte value 0..255; the code
never inspects values above 127 except to find them unequal to ASCII bytes,
so no truncation is needed).  A parser outcome distinguishes

* `ok rest val` — nom's `Ok((rest, val))`, the unconsumed remainder plus value;
* `err`        — nom's `Err(..)` returned to the caller as a value;
* `panicked`   — a Rust `panic!` / `.unwrap()` on `Err` (process abort,
  not a value returned to the caller);
* `outOfFuel`  — an artifact of the fuel-indexed embedding of the recursion
  in `resp`/`array`; it is proved unreachable for the fuel `resp` uses.
-/

/-- Outcome of running a decoder on a byte list. -/
inductive PR (α : Type) where
  | ok : List Nat → α → PR α
  | err : PR α
  | panicked : PR α
  | outOfFuel : PR α
deriving DecidableEq

/-- The value tree, `enum Resp` of `parser.rs`: five variants, with
`Option` payloads for Bulk Strings and Arrays. -/
inductive Resp where
  | simpleString : List Nat → Resp
  | integer : Int → Resp
  | error : List Nat → Resp
  | bulkString : Option (List Nat) → Resp
  | array : Option (List Resp) → Resp

/-- Embedding of nom's complete `not_line_ending`: scan for the first
carriage return (13) or line feed (10).  None found: succeed consuming the
whole input.  A carriage return must be followed by a line feed, else the
parser fails (`Err`).  A bare line feed stops the scan successfully (the
following `crlf` then rejects it).  Returns `(rest, value)` in nom's order,
the terminator left in `rest`. -/
def nle : List Nat → Option (List Nat × List Nat)
  | [] => some ([], [])
  | c :: cs =>
    if c = 13 then
      if cs.head? = some 10 then some (c :: cs, []) else none
    else if c = 10 then some (c :: cs, [])
    else (nle cs).map (fun p => (p.1, c :: p.2))

/-- Embedding of nom's complete `crlf`: the input must start with the
two bytes 13, 10, which are consumed. -/
def crlfP : List Nat → Option (List Nat)
  | [] => none
  | [_] => none
  | a :: b :: r => if a = 13 ∧ b = 10 then some r else none

/-- The shared line primitive `terminated(not_line_ending, crlf)` used by
`simple_string`, `integer`, `error` and `length` in `parser.rs`. -/
def lineD (s : List Nat) : Option (List Nat × List Nat) :=
  match nle s with
  | none => none
  | some (r, v) => (crlfP r).map (fun r2 => (r2, v))

/-- Byte is an ASCII decimal digit. -/
def isDigit (c : Nat) : Bool := 48 ≤ c && c ≤ 57

/-- Every byte of the list is an ASCII decimal digit. -/
def allDigits : List Nat → Bool
  | [] => true
  | c :: cs => isDigit c && allDigits cs

/-- Numeric value of a list of ASCII digit bytes, most significant first. -/
def digitsVal : List Nat → Nat
  | [] => 0
  | c :: cs => (c - 48) * 10 ^ cs.length + digitsVal cs

/-- Embedding of Rust's `str::parse::<usize>` on the bytes of the line (the
`from_utf8_lossy` conversion is the identity on the accepting set, and maps
every non-conforming byte sequence to non-digit characters).  An optional
leading plus sign (43) is accepted — `from_str_radix` strips `+` for
unsigned types but not `-` — then one or more digits whose value must fit
in a 64-bit `usize`. -/
def parseUsize (v : List Nat) : Option Nat :=
  match v with
  | [] => none
  | c :: w =>
    if c = 43 then
      if w ≠ [] ∧ allDigits w ∧ digitsVal w < 2 ^ 64 then some (digitsVal w) else none
    else
      if allDigits (c :: w) ∧ digitsVal (c :: w) < 2 ^ 64 then some (digitsVal (c :: w))
      else none

/-- Embedding of Rust's `str::parse::<i64>`: optional leading `+` (43) or
`-` (45), then one or more digits, value within the signed 64-bit range. -/
def parseI64 (v : List Nat) : Option Int :=
  match v with
  | [] => none
  | c :: w =>
    if c = 43 then
      if w ≠ [] ∧ allDigits w ∧ digitsVal w ≤ 2 ^ 63 - 1 then some ((digitsVal w : Int))
      else none
    else if c = 45 then
      if w ≠ [] ∧ allDigits w ∧ digitsVal w ≤ 2 ^ 63 then some (-(digitsVal w : Int))
      else none
    else
      if allDigits (c :: w) ∧ digitsVal (c :: w) ≤ 2 ^ 63 - 1 then
        some ((digitsVal (c :: w) : Int))
      else none

/-- Rust `fn simple_string` (parser.rs:109-112): line, wrapped verbatim. -/
def simple_string (s : List Nat) : PR Resp :=
  match lineD s with
  | some (r, v) => PR.ok r (Resp.simpleString v)
  | none => PR.err

/-- Rust `fn integer` (parser.rs:114-120): line, then
`String::from_utf8_lossy(val).parse::<i64>().unwrap()` — the `.unwrap()`
panics when the text does not parse. -/
def integer (s : List Nat) : PR Resp :=
  match lineD s with
  | some (r, v) =>
    match parseI64 v with
    | some i => PR.ok r (Resp.integer i)
    | none => PR.panicked
  | none => PR.err

/-- Rust `fn error` (parser.rs:122-125): line, wrapped verbatim. -/
def error (s : List Nat) : PR Resp :=
  match lineD s with
  | some (r, v) => PR.ok r (Resp.error v)
  | none => PR.err

/-- Rust `fn length` (parser.rs:137-140): line, then
`String::from_utf8_lossy(len).parse().unwrap()` — panics when the text does
not parse as `usize`. -/
def length (s : List Nat) : PR Nat :=
  match lineD s with
  | some (r, v) =>
    match parseUsize v with
    | some n => PR.ok r n
    | none => PR.panicked
  | none => PR.err

/-- Rust `fn bulk_string` (parser.rs:127-135): read a length `n`; zero yields the
absent form with nothing further consumed; otherwise
`terminated(take(len), crlf)` — exactly `n` raw bytes (failing when fewer
remain) followed by the mandatory terminator. -/
def bulk_string (s : List Nat) : PR Resp :=
  match length s with
  | PR.ok r n =>
    if n = 0 then PR.ok r (Resp.bulkString none)
    else if n ≤ r.length then
      match crlfP (r.drop n) with
      | some r2 => PR.ok r2 (Resp.bulkString (some (r.take n)))
      | none => PR.err
    else PR.err
  | PR.err => PR.err
  | PR.panicked => PR.panicked
  | PR.outOfFuel => PR.outOfFuel

/-- Embedding of nom's `count(p, n)` (used at parser.rs:147): run `p`
exactly `n` times in sequence, each run starting on the previous run's
remainder, collecting values in run order; the first failing run's outcome
becomes the outcome of the whole, with no partial list. -/
def countF (p : List Nat → PR Resp) : Nat → List Nat → PR (List Resp)
  | 0, s => PR.ok s []
  | n + 1, s =>
    match p s with
    | PR.ok r v =>
      match countF p n r with
      | PR.ok r2 vs => PR.ok r2 (v :: vs)
      | PR.err => PR.err
      | PR.panicked => PR.panicked
      | PR.outOfFuel => PR.outOfFuel
    | PR.err => PR.err
    | PR.panicked => PR.panicked
    | PR.outOfFuel => PR.outOfFuel

/-- Rust `fn array` (parser.rs:142-149), parameterized by the parser `p` used for
the elements (the source fixes `p = resp`; the embedding passes the
fuel-indexed `resp` in): read a length `n`; zero yields the absent form;
otherwise `count(p, n)` wrapped in the present form. -/
def array (p : List Nat → PR Resp) (s : List Nat) : PR Resp :=
  match length s with
  | PR.ok r n =>
    if n = 0 then PR.ok r (Resp.array none)
    else
      match countF p n r with
      | PR.ok r2 vs => PR.ok r2 (Resp.array (some vs))
      | PR.err => PR.err
      | PR.panicked => PR.panicked
      | PR.outOfFuel => PR.outOfFuel
  | PR.err => PR.err
  | PR.panicked => PR.panicked
  | PR.outOfFuel => PR.outOfFuel

/-- Rust `fn resp` (parser.rs:97-107) minus the recursion: `take(1usize)` (an
empty buffer is a nom `Err`), then dispatch on the marker byte —
43 `+`, 58 `:`, 45 `-`, 36 `$`, 42 `*` — any other byte hits
`panic!("Unknown type byte")`. -/
def dispatch (p : List Nat → PR Resp) : List Nat → PR Resp
  | [] => PR.err
  | c :: input =>
    if c = 43 then simple_string input
    else if c = 58 then integer input
    else if c = 45 then error input
    else if c = 36 then bulk_string input
    else if c = 42 then array p input
    else PR.panicked

/-- Fuel-indexed tying of the `resp`/`array` recursion knot.  Rust recursion
is direct; the embedding spends one unit of fuel per `resp` call and is
proved below to never run out at fuel `input length + 1`. -/
def respF : Nat → List Nat → PR Resp :=
  @Nat.rec (fun _ => List Nat → PR Resp)
    (fun _ => PR.outOfFuel)
    (fun _ ih => dispatch ih)

/-- Rust `pub fn resp`, the entry operation: the fuel-indexed parser at a fuel
large enough (proved below) for every recursive call the input can cause. -/
def resp (s : List Nat) : PR Resp := respF (s.length + 1) s

example : respF 0 [43] = PR.outOfFuel := rfl

example : ∀ f s, respF (f + 1) s = dispatch (respF f) s := fun _ _ => rfl

example : resp [43, 79, 75, 13, 10] = PR.ok [] (Resp.simpleString [79, 75]) := rfl

example : resp [58, 56, 13, 10] = PR.ok [] (Resp.integer 8) := rfl

example : resp [58, 79, 75, 13, 10] = PR.panicked := rfl

example : resp [63, 13, 10] = PR.panicked := rfl

example : resp [36, 52, 13, 10, 103, 111, 111, 100, 13, 10] =
    PR.ok [] (Resp.bulkString (some [103, 111, 111, 100])) := rfl

example : resp [42, 48, 13, 10] = PR.ok [] (Resp.array none) := rfl

example : resp [42, 50, 13, 10, 58, 49, 13, 10, 58, 50, 13, 10] =
    PR.ok [] (Resp.array (some [Resp.integer 1, Resp.integer 2])) := rfl

example : resp [45, 69, 13, 10] = PR.ok [] (Resp.error [69]) := rfl

example : resp [36, 13, 10] = PR.panicked := rfl

example : resp [36, 43, 53, 13, 10] = PR.err := rfl

example : length [43, 53, 13, 10] = PR.ok [] 5 := rfl

/-! ### Characterization of the shared line primitive -/

theorem nle_append (v : List Nat) (hv13 : 13 ∉ v) (hv10 : 10 ∉ v) (r : List Nat) :
    nle (v ++ 13 :: 10 :: r) = some (13 :: 10 :: r, v) := by
  induction v with
  | nil => rfl
  | cons c v ih =>
    have hc13 : c ≠ 13 := fun h => hv13 (by simp [h])
    have hc10 : c ≠ 10 := fun h => hv10 (by simp [h])
    have ih2 := ih (fun h => hv13 (List.mem_cons_of_mem c h))
      (fun h => hv10 (List.mem_cons_of_mem c h))
    simp [nle, hc13, hc10, ih2]

theorem nle_some {s q v : List Nat} (h : nle s = some (q, v)) :
    s = v ++ q ∧ 13 ∉ v ∧ 10 ∉ v := by
  induction s generalizing q v with
  | nil =>
    simp [nle] at h
    obtain ⟨rfl, rfl⟩ := h
    simp
  | cons c cs ih =>
    by_cases hc13 : c = 13
    · subst hc13
      by_cases hh : cs.head? = some 10
      · simp [nle, hh] at h
        obtain ⟨rfl, rfl⟩ := h
        simp
      · simp [nle, hh] at h
    · by_cases hc10 : c = 10
      · subst hc10
        simp [nle] at h
        obtain ⟨rfl, rfl⟩ := h
        simp
      · rw [show nle (c :: cs) = (nle cs).map (fun p => (p.1, c :: p.2)) by
            simp [nle, hc13, hc10]] at h
        cases hn : nle cs with
        | none => rw [hn] at h; cases h
        | some p =>
          obtain ⟨q0, v0⟩ := p
          rw [hn, Option.map_some'] at h
          cases h
          obtain ⟨hs, h13, h10⟩ := ih hn
          subst hs
          refine ⟨rfl, ?_, ?_⟩
          · simp [hc13, Ne.symm hc13, h13]
          · simp [hc10, Ne.symm hc10, h10]

theorem crlfP_some {q r : List Nat} (h : crlfP q = some r) : q = 13 :: 10 :: r := by
  match q with
  | [] => simp [crlfP] at h
  | [a] => simp [crlfP] at h
  | a :: b :: t =>
    simp only [crlfP] at h
    split at h
    · rename_i hab
      obtain ⟨rfl, rfl⟩ := hab
      cases h
      rfl
    · cases h

theorem lineD_append (v r : List Nat) (hv13 : 13 ∉ v) (hv10 : 10 ∉ v) :
    lineD (v ++ 13 :: 10 :: r) = some (r, v) := by
  unfold lineD
  rw [nle_append v hv13 hv10 r]
  simp [crlfP]

theorem lineD_some {s r v : List Nat} (h : lineD s = some (r, v)) :
    s = v ++ 13 :: 10 :: r ∧ 13 ∉ v ∧ 10 ∉ v := by
  unfold lineD at h
  cases hn : nle s with
  | none => rw [hn] at h; cases h
  | some p =>
    obtain ⟨q, v0⟩ := p
    rw [hn] at h
    cases hc : crlfP q with
    | none => simp [hc] at h
    | some r2 =>
      simp only [hc, Option.map_some'] at h
      cases h
      obtain ⟨hs, h13, h10⟩ := nle_some hn
      exact ⟨by rw [hs, crlfP_some hc], h13, h10⟩

theorem lineD_eq_some {s r v : List Nat} :
    lineD s = some (r, v) ↔ (s = v ++ 13 :: 10 :: r ∧ 13 ∉ v ∧ 10 ∉ v) :=
  ⟨lineD_some, fun ⟨h1, h2, h3⟩ => h1 ▸ lineD_append v r h2 h3⟩

theorem length_ok {s r : List Nat} {n : Nat} (h : length s = PR.ok r n) :
    ∃ v, s = v ++ 13 :: 10 :: r ∧ 13 ∉ v ∧ 10 ∉ v ∧ parseUsize v = some n := by
  unfold length at h
  split at h
  · rename_i r0 v0 heq
    split at h
    · rename_i m hp
      cases h
      obtain ⟨hs, h13, h10⟩ := lineD_some heq
      exact ⟨v0, hs, h13, h10, hp⟩
    · cases h
  · cases h

theorem simple_string_ok {s r : List Nat} {v : Resp} (h : simple_string s = PR.ok r v) :
    ∃ q, s = q ++ r ∧ q ≠ [] := by
  unfold simple_string at h
  split at h
  · rename_i r0 v0 heq
    cases h
    obtain ⟨hs, _, _⟩ := lineD_some heq
    exact ⟨v0 ++ [13, 10], by simp [hs], by simp⟩
  · cases h

theorem integer_ok {s r : List Nat} {v : Resp} (h : integer s = PR.ok r v) :
    ∃ q, s = q ++ r ∧ q ≠ [] := by
  unfold integer at h
  split at h
  · rename_i r0 v0 heq
    split at h
    · cases h
      obtain ⟨hs, _, _⟩ := lineD_some heq
      exact ⟨v0 ++ [13, 10], by simp [hs], by simp⟩
    · cases h
  · cases h

theorem error_ok {s r : List Nat} {v : Resp} (h : error s = PR.ok r v) :
    ∃ q, s = q ++ r ∧ q ≠ [] := by
  unfold error at h
  split at h
  · rename_i r0 v0 heq
    cases h
    obtain ⟨hs, _, _⟩ := lineD_some heq
    exact ⟨v0 ++ [13, 10], by simp [hs], by simp⟩
  · cases h

theorem bulk_string_ok {s r : List Nat} {v : Resp} (h : bulk_string s = PR.ok r v) :
    ∃ q, s = q ++ r ∧ q ≠ [] := by
  unfold bulk_string at h
  split at h
  · rename_i r0 n heq
    obtain ⟨w, hs, _, _, _⟩ := length_ok heq
    by_cases hn : n = 0
    · rw [if_pos hn] at h
      cases h
      exact ⟨w ++ [13, 10], by simp [hs], by simp⟩
    · rw [if_neg hn] at h
      by_cases hle : n ≤ r0.length
      · rw [if_pos hle] at h
        split at h
        · rename_i r2 hc
          cases h
          have hr0 : r0 = r0.take n ++ 13 :: 10 :: r := by
            conv_lhs => rw [← List.take_append_drop n r0]
            rw [crlfP_some hc]
          refine ⟨w ++ 13 :: 10 :: (r0.take n ++ [13, 10]), ?_, by simp⟩
          rw [hs]
          nth_rewrite 1 [hr0]
          simp
        · cases h
      · rw [if_neg hle] at h
        cases h
  · cases h
  · cases h
  · cases h

theorem countF_consume {p : List Nat → PR Resp}
    (hp : ∀ s r v, p s = PR.ok r v → ∃ q, s = q ++ r) :
    ∀ n s r vs, countF p n s = PR.ok r vs → ∃ q, s = q ++ r := by
  intro n
  induction n with
  | zero =>
    intro s r vs h
    cases h
    exact ⟨[], rfl⟩
  | succ n ih =>
    intro s r vs h
    simp only [countF] at h
    split at h
    · rename_i r1 v1 hp1
      split at h
      · rename_i r2 vs2 hc
        cases h
        obtain ⟨q1, hq1⟩ := hp s r1 v1 hp1
        obtain ⟨q2, hq2⟩ := ih r1 r vs2 hc
        exact ⟨q1 ++ q2, by rw [hq1, hq2, List.append_assoc]⟩
      · cases h
      · cases h
      · cases h
    · cases h
    · cases h
    · cases h

theorem array_ok {p : List Nat → PR Resp}
    (hp : ∀ s r v, p s = PR.ok r v → ∃ q, s = q ++ r)
    {s r : List Nat} {v : Resp} (h : array p s = PR.ok r v) :
    ∃ q, s = q ++ r ∧ q ≠ [] := by
  unfold array at h
  split at h
  · rename_i r0 n heq
    obtain ⟨w, hs, _, _, _⟩ := length_ok heq
    by_cases hn : n = 0
    · rw [if_pos hn] at h
      cases h
      exact ⟨w ++ [13, 10], by simp [hs], by simp⟩
    · rw [if_neg hn] at h
      split at h
      · rename_i r2 vs hc
        cases h
        obtain ⟨q2, hq2⟩ := countF_consume hp n r0 r vs hc
        refine ⟨w ++ 13 :: 10 :: q2, ?_, by simp⟩
        rw [hs, hq2]
        simp
      · cases h
      · cases h
      · cases h
  · cases h
  · cases h
  · cases h

theorem respF_succ (f : Nat) (s : List Nat) : respF (f + 1) s = dispatch (respF f) s := rfl

theorem respF_consume : ∀ f s r v, respF f s = PR.ok r v → ∃ q, s = q ++ r ∧ q ≠ [] := by
  intro f
  induction f with
  | zero => intro s r v h; cases h
  | succ f ih =>
    intro s r v h
    rw [respF_succ] at h
    cases s with
    | nil => cases h
    | cons c input =>
      simp only [dispatch] at h
      split_ifs at h with h43 h58 h45 h36 h42
      · obtain ⟨q, hq, _⟩ := simple_string_ok h
        exact ⟨c :: q, by simp [hq], by simp⟩
      · obtain ⟨q, hq, _⟩ := integer_ok h
        exact ⟨c :: q, by simp [hq], by simp⟩
      · obtain ⟨q, hq, _⟩ := error_ok h
        exact ⟨c :: q, by simp [hq], by simp⟩
      · obtain ⟨q, hq, _⟩ := bulk_string_ok h
        exact ⟨c :: q, by simp [hq], by simp⟩
      · obtain ⟨q, hq, _⟩ :=
          array_ok (fun s2 r2 v2 hh => (ih s2 r2 v2 hh).imp (fun q2 hq2 => hq2.1)) h
        exact ⟨c :: q, by simp [hq], by simp⟩

theorem length_ne_oof (s : List Nat) : length s ≠ PR.outOfFuel := by
  unfold length
  split
  · split <;> simp
  · simp

theorem simple_string_ne_oof (s : List Nat) : simple_string s ≠ PR.outOfFuel := by
  unfold simple_string
  split <;> simp

theorem integer_ne_oof (s : List Nat) : integer s ≠ PR.outOfFuel := by
  unfold integer
  split
  · split <;> simp
  · simp

theorem error_ne_oof (s : List Nat) : error s ≠ PR.outOfFuel := by
  unfold error
  split <;> simp

theorem bulk_string_ne_oof (s : List Nat) : bulk_string s ≠ PR.outOfFuel := by
  unfold bulk_string
  split
  · rename_i heq
    split_ifs
    · simp
    · split <;> simp
    · simp
  · simp
  · simp
  · rename_i heq
    exact absurd heq (length_ne_oof s)

theorem countF_oof {p : List Nat → PR Resp}
    (hp : ∀ s r v, p s = PR.ok r v → ∃ q, s = q ++ r) :
    ∀ n s, countF p n s = PR.outOfFuel → ∃ q s2, s = q ++ s2 ∧ p s2 = PR.outOfFuel := by
  intro n
  induction n with
  | zero => intro s h; cases h
  | succ n ih =>
    intro s h
    simp only [countF] at h
    split at h
    · rename_i r1 v1 hp1
      split at h
      · cases h
      · cases h
      · cases h
      · rename_i hc
        obtain ⟨q1, hq1⟩ := hp s r1 v1 hp1
        obtain ⟨q2, s2, hq2, hoof⟩ := ih r1 hc
        exact ⟨q1 ++ q2, s2, by rw [hq1, hq2, List.append_assoc], hoof⟩
    · cases h
    · cases h
    · rename_i hoof
      exact ⟨[], s, rfl, hoof⟩

theorem respF_no_oof : ∀ f s, s.length < f → respF f s ≠ PR.outOfFuel := by
  intro f
  induction f with
  | zero => intro s hs; exact absurd hs (Nat.not_lt_zero _)
  | succ f ih =>
    intro s hs h
    rw [respF_succ] at h
    cases s with
    | nil => cases h
    | cons c input =>
      simp only [dispatch] at h
      split_ifs at h with h43 h58 h45 h36 h42
      · exact simple_string_ne_oof input h
      · exact integer_ne_oof input h
      · exact error_ne_oof input h
      · exact bulk_string_ne_oof input h
      · unfold array at h
        split at h
        · rename_i r0 n heq
          by_cases hn : n = 0
          · rw [if_pos hn] at h
            cases h
          · rw [if_neg hn] at h
            split at h
            · cases h
            · cases h
            · cases h
            · rename_i hc
              have hpw : ∀ s2 r2 v2, respF f s2 = PR.ok r2 v2 → ∃ q, s2 = q ++ r2 :=
                fun s2 r2 v2 hh => (respF_consume f s2 r2 v2 hh).imp (fun q hq => hq.1)
              obtain ⟨q, s2, hq, hoof⟩ := countF_oof hpw n r0 hc
              obtain ⟨w, hsin, _, _, _⟩ := length_ok heq
              have l1 : input.length = w.length + 2 + r0.length := by
                rw [hsin]; simp; omega
              have l2 : r0.length = q.length + s2.length := by
                rw [hq]; simp
              have hs2 : s2.length < f := by
                simp only [List.length_cons] at hs
                omega
              exact ih s2 hs2 hoof
        · cases h
        · cases h
        · rename_i heq
          exact absurd heq (length_ne_oof input)

theorem countF_congr {p p' : List Nat → PR Resp}
    (hp : ∀ s r v, p s = PR.ok r v → ∃ q, s = q ++ r) :
    ∀ n s, (∀ t : List Nat, t.length ≤ s.length → p t = p' t) →
      countF p n s = countF p' n s := by
  intro n
  induction n with
  | zero => intro s _; rfl
  | succ n ih =>
    intro s hagree
    have h0 : p s = p' s := hagree s le_rfl
    cases hps : p s with
    | ok r1 v1 =>
      have hr : r1.length ≤ s.length := by
        obtain ⟨q, hq⟩ := hp s r1 v1 hps
        rw [hq]; simp
      simp only [countF, ← h0, hps, ih r1 (fun t ht => hagree t (le_trans ht hr))]
    | err => simp only [countF, ← h0, hps]
    | panicked => simp only [countF, ← h0, hps]
    | outOfFuel => simp only [countF, ← h0, hps]

theorem array_congr {p p' : List Nat → PR Resp}
    (hp : ∀ s r v, p s = PR.ok r v → ∃ q, s = q ++ r)
    {s : List Nat} (hagree : ∀ t : List Nat, t.length ≤ s.length → p t = p' t) :
    array p s = array p' s := by
  unfold array
  cases hlen : length s with
  | ok r0 n =>
    by_cases hn : n = 0
    · simp [hn]
    · have hr0 : r0.length ≤ s.length := by
        obtain ⟨w, hs, _, _, _⟩ := length_ok hlen
        rw [hs]; simp; omega
      simp only [countF_congr hp n r0 (fun t ht => hagree t (le_trans ht hr0))]
  | err => rfl
  | panicked => rfl
  | outOfFuel => rfl

theorem respF_stable : ∀ f f' s, s.length < f → s.length < f' → respF f s = respF f' s := by
  intro f
  induction f with
  | zero => intro f' s h _; exact absurd h (Nat.not_lt_zero _)
  | succ f ih =>
    intro f' s hf hf'
    cases f' with
    | zero => exact absurd hf' (Nat.not_lt_zero _)
    | succ f2 =>
      rw [respF_succ, respF_succ]
      cases s with
      | nil => rfl
      | cons c input =>
        have hlen : input.length < f ∧ input.length < f2 := by
          simp only [List.length_cons] at hf hf'
          omega
        simp only [dispatch]
        split_ifs with h43 h58 h45 h36 h42 <;> try rfl
        exact array_congr
          (fun s2 r2 v2 hh => (respF_consume f s2 r2 v2 hh).imp (fun q hq => hq.1))
          (fun t ht => ih f2 t (lt_of_le_of_lt ht hlen.1) (lt_of_le_of_lt ht hlen.2))

theorem resp_fuel {f : Nat} {s : List Nat} (h : s.length < f) : respF f s = resp s :=
  respF_stable f (s.length + 1) s h (Nat.lt_succ_self _)

theorem resp_ne_oof (s : List Nat) : resp s ≠ PR.outOfFuel :=
  respF_no_oof (s.length + 1) s (Nat.lt_succ_self _)

theorem resp_consume {s r : List Nat} {v : Resp} (h : resp s = PR.ok r v) :
    ∃ q, s = q ++ r ∧ q ≠ [] :=
  respF_consume (s.length + 1) s r v h

theorem resp_nil : resp [] = PR.err := rfl

theorem resp_simple_string (input : List Nat) : resp (43 :: input) = simple_string input := rfl

theorem resp_integer (input : List Nat) : resp (58 :: input) = integer input := rfl

theorem resp_error (input : List Nat) : resp (45 :: input) = error input := rfl

theorem resp_bulk_string (input : List Nat) : resp (36 :: input) = bulk_string input := rfl

theorem resp_array_fuel (input : List Nat) :
    resp (42 :: input) = array (respF (input.length + 1)) input := rfl

theorem resp_array (input : List Nat) : resp (42 :: input) = array resp input := by
  rw [resp_array_fuel]
  exact array_congr
    (fun s2 r2 v2 hh => (respF_consume _ s2 r2 v2 hh).imp (fun q hq => hq.1))
    (fun t ht => resp_fuel (Nat.lt_succ_of_le ht))

theorem resp_unknown {c : Nat} (input : List Nat)
    (h43 : c ≠ 43) (h58 : c ≠ 58) (h45 : c ≠ 45) (h36 : c ≠ 36) (h42 : c ≠ 42) :
    resp (c :: input) = PR.panicked := by
  have hd : resp (c :: input) = dispatch (respF (input.length + 1)) (c :: input) := rfl
  rw [hd]
  simp [dispatch, h43, h58, h45, h36, h42]

theorem lineD_eq_none {s : List Nat} :
    lineD s = none ↔ ¬ ∃ v r, s = v ++ 13 :: 10 :: r ∧ 13 ∉ v ∧ 10 ∉ v := by
  constructor
  · rintro h ⟨v, r, rfl, h13, h10⟩
    rw [lineD_append v r h13 h10] at h
    cases h
  · intro h
    cases hl : lineD s with
    | none => rfl
    | some p =>
      obtain ⟨r, v⟩ := p
      obtain ⟨hs, h13, h10⟩ := lineD_some hl
      exact absurd ⟨v, r, hs, h13, h10⟩ h

/-! ### Claim theorems -/

/-- C1: the claim says an unrecognized marker byte yields a structured
UnknownMarker decode failure reported to the caller; the code instead hits
`panic!("Unknown type byte: ...")` (parser.rs:106).  Evaluating the decoder
on a buffer whose first byte is `?` (63) — with any bytes after it — shows
the outcome is a panic, not a returned failure value. -/
theorem c1_unknown_marker_panics (rest : List Nat) : resp (63 :: rest) = PR.panicked :=
  resp_unknown rest (by decide) (by decide) (by decide) (by decide) (by decide)

/-- C2 counterexample: decoding `:OK\r\n` (bytes 58,79,75,13,10) ends in a
panic (`.unwrap()` on the failed `parse::<i64>`, parser.rs:118), not in an
invalid-numeric-literal failure returned to the caller, refuting the claim
at this concrete input. -/
theorem c2_counterexample : resp [58, 79, 75, 13, 10] = PR.panicked := rfl

/-- C2 amended: for every input of the form `:` followed by a line whose
text does not parse as an optionally-signed base-10 64-bit integer, the
Integer decoder panics (aborts) instead of returning a failure to its
caller. -/
theorem c2_integer_invalid_panics (v r : List Nat) (h13 : 13 ∉ v) (h10 : 10 ∉ v)
    (hp : parseI64 v = none) : resp (58 :: (v ++ 13 :: 10 :: r)) = PR.panicked := by
  rw [resp_integer]
  unfold integer
  rw [lineD_append v r h13 h10]
  simp [hp]

/-- C2 witness: the amended theorem applied at `:OK\r\n`. -/
theorem c2_witness :
    13 ∉ ([79, 75] : List Nat) ∧ 10 ∉ ([79, 75] : List Nat) ∧ parseI64 [79, 75] = none ∧
      resp (58 :: ([79, 75] ++ 13 :: 10 :: [])) = PR.panicked :=
  ⟨by decide, by decide, by decide,
    c2_integer_invalid_panics [79, 75] [] (by decide) (by decide) (by decide)⟩

/-- C3 counterexample: a Bulk String length line with empty text (input
`\r\n` to the Length Decoder) makes `length` panic (`.unwrap()` on the
failed `parse`, parser.rs:139), not return a decode failure to its caller,
refuting the claim at this concrete input. -/
theorem c3_counterexample : length [13, 10] = PR.panicked := rfl

/-- C3 amended: on a length line `v` followed by the terminator, the Length
Decoder returns the parsed non-negative integer when the text parses as a
`usize` (one or more digits, an accepted optional leading `+` sign, value
below 2^64), and otherwise — empty text, other non-digit characters, a `-`
sign, or overflow — it panics rather than returning a failure to its
caller. -/
theorem c3_length_spec (v r : List Nat) (h13 : 13 ∉ v) (h10 : 10 ∉ v) :
    length (v ++ 13 :: 10 :: r) =
      (match parseUsize v with
        | some n => PR.ok r n
        | none => PR.panicked) := by
  unfold length
  rw [lineD_append v r h13 h10]

/-- C3 witness: the amended theorem applied at length line text `4` (and the
match evaluated on both a conforming and a panicking instance). -/
theorem c3_witness :
    13 ∉ ([52] : List Nat) ∧ 10 ∉ ([52] : List Nat) ∧
      length ([52] ++ 13 :: 10 :: []) =
        (match parseUsize [52] with
          | some n => PR.ok [] n
          | none => PR.panicked) ∧
      length ([52] ++ 13 :: 10 :: []) = PR.ok [] 4 :=
  ⟨by decide, by decide, c3_length_spec [52] [] (by decide) (by decide), rfl⟩

/-- C6: decoding `*0\r\n` yields the Array absent form, decoding `$0\r\n`
yields the BulkString absent form, and in both cases nothing beyond the
length line is consumed: with any bytes `r` following the length line, the
remainder returned is exactly `r`. -/
theorem c6_zero_length_absent_forms (r : List Nat) :
    resp (42 :: 48 :: 13 :: 10 :: r) = PR.ok r (Resp.array none) ∧
      resp (36 :: 48 :: 13 :: 10 :: r) = PR.ok r (Resp.bulkString none) :=
  ⟨rfl, rfl⟩

/-- C7: the Line Decoder (shared by `simple_string` and `error`) succeeds
with value `v` and remainder `r` exactly when the input splits as
`v ++ CR LF ++ r` with `v` free of both terminator bytes — i.e. it returns
exactly the bytes before the first terminator and advances past it — and it
fails exactly when no such split exists: no terminator before the buffer
ends, a bare line feed, or a carriage return not followed by a line feed
(lone terminator byte or wrong order). -/
theorem c7_line_decoder (s : List Nat) :
    (∀ r v : List Nat,
      lineD s = some (r, v) ↔ (s = v ++ 13 :: 10 :: r ∧ 13 ∉ v ∧ 10 ∉ v)) ∧
    (lineD s = none ↔ ¬ ∃ v r : List Nat, s = v ++ 13 :: 10 :: r ∧ 13 ∉ v ∧ 10 ∉ v) :=
  ⟨fun _ _ => lineD_eq_some, lineD_eq_none⟩

/-- C8: whenever the entry operation succeeds, the returned remainder is a
suffix of the input and the consumed bytes form a non-empty prefix, so
back-to-back messages decode in order by repeated calls; in particular the
pipelined buffer `$4\r\ngood\r\n:8\r\n+OK\r\n` decodes in three sequential
calls to BulkString "good", Integer 8, SimpleString "OK", ending with an
empty remainder. -/
theorem c8_prefix_pipelining :
    (∀ (s r : List Nat) (v : Resp), resp s = PR.ok r v → ∃ p, s = p ++ r ∧ p ≠ []) ∧
    resp [36, 52, 13, 10, 103, 111, 111, 100, 13, 10, 58, 56, 13, 10, 43, 79, 75, 13, 10] =
      PR.ok [58, 56, 13, 10, 43, 79, 75, 13, 10] (Resp.bulkString (some [103, 111, 111, 100])) ∧
    resp [58, 56, 13, 10, 43, 79, 75, 13, 10] =
      PR.ok [43, 79, 75, 13, 10] (Resp.integer 8) ∧
    resp [43, 79, 75, 13, 10] = PR.ok [] (Resp.simpleString [79, 75]) :=
  ⟨fun _ _ _ h => resp_consume h, rfl, rfl, rfl⟩

/-- C8 witness: the suffix property applied at the concrete third call of
the pipeline. -/
theorem c8_witness :
    resp [43, 79, 75, 13, 10] = PR.ok [] (Resp.simpleString [79, 75]) ∧
      ∃ p, [43, 79, 75, 13, 10] = p ++ ([] : List Nat) ∧ p ≠ [] :=
  ⟨rfl, c8_prefix_pipelining.1 [43, 79, 75, 13, 10] [] (Resp.simpleString [79, 75]) rfl⟩

/-- C5: after the length line of a Bulk String yields `n > 0` with `r` the
bytes after that line, the decoder consumes exactly `n` raw bytes — any
byte values, terminator bytes included — then requires CR LF: it succeeds
with exactly those `n` bytes precisely on inputs of shape
`payload(n) ++ CR LF ++ rest`, and returns a failure (no partial value)
when fewer than `n` bytes remain or the two bytes after the payload are not
CR LF. -/
theorem c5_bulk_string_exact (s r : List Nat) (n : Nat) (hn : 0 < n)
    (hlen : length s = PR.ok r n) :
    (resp (36 :: s) =
      (if n ≤ r.length then
        (match crlfP (r.drop n) with
          | some r2 => PR.ok r2 (Resp.bulkString (some (r.take n)))
          | none => PR.err)
       else PR.err)) ∧
    (∀ b r2 : List Nat, b.length = n → r = b ++ 13 :: 10 :: r2 →
      resp (36 :: s) = PR.ok r2 (Resp.bulkString (some b))) ∧
    ((¬ ∃ b r2 : List Nat, b.length = n ∧ r = b ++ 13 :: 10 :: r2) →
      resp (36 :: s) = PR.err) := by
  have hn0 : n ≠ 0 := by omega
  have main : resp (36 :: s) =
      (if n ≤ r.length then
        (match crlfP (r.drop n) with
          | some r2 => PR.ok r2 (Resp.bulkString (some (r.take n)))
          | none => PR.err)
       else PR.err) := by
    rw [resp_bulk_string]
    unfold bulk_string
    simp only [hlen, if_neg hn0]
  refine ⟨main, ?_, ?_⟩
  · intro b r2 hb hr
    subst hr
    rw [main]
    have h1 : n ≤ (b ++ 13 :: 10 :: r2).length := by
      simp [List.length_append]
      omega
    rw [if_pos h1]
    have hd : (b ++ 13 :: 10 :: r2).drop n = 13 :: 10 :: r2 := by
      rw [← hb, List.drop_left]
    have ht : (b ++ 13 :: 10 :: r2).take n = b := by
      rw [← hb, List.take_left]
    rw [hd, ht]
    simp [crlfP]
  · intro hne
    rw [main]
    by_cases h1 : n ≤ r.length
    · rw [if_pos h1]
      cases hc : crlfP (r.drop n) with
      | none => simp [hc]
      | some r2 =>
        exfalso
        apply hne
        refine ⟨r.take n, r2, ?_, ?_⟩
        · simp [List.length_take]
          omega
        · conv_lhs => rw [← List.take_append_drop n r]
          rw [crlfP_some hc]
    · rw [if_neg h1]

/-- C5 witness: the theorem applied at `$4\r\ngood\r\n` (length line `4`,
payload `good`), evaluating the success case. -/
theorem c5_witness :
    0 < 4 ∧
    length [52, 13, 10, 103, 111, 111, 100, 13, 10] = PR.ok [103, 111, 111, 100, 13, 10] 4 ∧
    resp (36 :: [52, 13, 10, 103, 111, 111, 100, 13, 10]) =
      PR.ok [] (Resp.bulkString (some [103, 111, 111, 100])) :=
  ⟨by decide, rfl,
    (c5_bulk_string_exact [52, 13, 10, 103, 111, 111, 100, 13, 10]
        [103, 111, 111, 100, 13, 10] 4 (by decide) rfl).2.1
      [103, 111, 111, 100] [] rfl rfl⟩

/-- Sequential decoding: starting at `s`, the values `vs` decode one after
another, each invocation of `resp` starting where the previous left off,
ending at `r`. -/
inductive SeqDecode : List Nat → List Resp → List Nat → Prop where
  | nil (s : List Nat) : SeqDecode s [] s
  | cons {s s2 r : List Nat} {v : Resp} {vs : List Resp} :
      resp s = PR.ok s2 v → SeqDecode s2 vs r → SeqDecode s (v :: vs) r

theorem countF_ok_length {p : List Nat → PR Resp} :
    ∀ n s r vs, countF p n s = PR.ok r vs → vs.length = n := by
  intro n
  induction n with
  | zero =>
    intro s r vs h
    cases h
    rfl
  | succ n ih =>
    intro s r vs h
    simp only [countF] at h
    split at h
    · split at h
      · rename_i r2 vs2 hc
        cases h
        simp [ih _ _ _ hc]
      · cases h
      · cases h
      · cases h
    · cases h
    · cases h
    · cases h

theorem countF_resp_ok_iff :
    ∀ n s r vs, countF resp n s = PR.ok r vs ↔ (vs.length = n ∧ SeqDecode s vs r) := by
  intro n
  induction n with
  | zero =>
    intro s r vs
    constructor
    · intro h
      cases h
      exact ⟨rfl, SeqDecode.nil s⟩
    · rintro ⟨hl, hsd⟩
      cases hsd with
      | nil => rfl
      | cons h1 h2 => simp at hl
  | succ n ih =>
    intro s r vs
    constructor
    · intro h
      simp only [countF] at h
      split at h
      · rename_i s2 v1 hr
        split at h
        · rename_i r2 vs2 hc
          cases h
          obtain ⟨hl, hsd⟩ := (ih _ _ _).mp hc
          exact ⟨by simp [hl], SeqDecode.cons hr hsd⟩
        · cases h
        · cases h
        · cases h
      · cases h
      · cases h
      · cases h
    · rintro ⟨hl, hsd⟩
      cases hsd with
      | nil => simp at hl
      | cons h1 h2 =>
        simp only [List.length_cons] at hl
        have hc := (ih _ _ _).mpr ⟨by omega, h2⟩
        simp only [countF, h1, hc]

theorem countF_resp_ne_oof : ∀ n s, countF resp n s ≠ PR.outOfFuel := by
  intro n
  induction n with
  | zero => intro s h; cases h
  | succ n ih =>
    intro s h
    simp only [countF] at h
    split at h
    · split at h
      · cases h
      · cases h
      · cases h
      · rename_i hc
        exact ih _ hc
    · cases h
    · cases h
    · rename_i hr
      exact resp_ne_oof _ hr

theorem countF_resp_fail :
    ∀ n s, (countF resp n s = PR.err ∨ countF resp n s = PR.panicked) →
      ∃ (k : Nat) (vs : List Resp) (s3 : List Nat),
        vs.length = k ∧ k < n ∧ SeqDecode s vs s3 ∧
          ((resp s3 = PR.err ∧ countF resp n s = PR.err) ∨
            (resp s3 = PR.panicked ∧ countF resp n s = PR.panicked)) := by
  intro n
  induction n with
  | zero =>
    intro s h
    rcases h with h | h <;> cases h
  | succ n ih =>
    intro s h
    cases hr : resp s with
    | ok s2 v1 =>
      cases hc : countF resp n s2 with
      | ok r2 vs2 =>
        rcases h with h | h <;> simp only [countF, hr, hc] at h <;> cases h
      | err =>
        obtain ⟨k, vs, s3, hl, hk, hsd, hcase⟩ := ih s2 (Or.inl hc)
        refine ⟨k + 1, v1 :: vs, s3, by simp [hl], by omega, SeqDecode.cons hr hsd, ?_⟩
        rcases hcase with ⟨h1, _⟩ | ⟨h1, h2⟩
        · exact Or.inl ⟨h1, by simp only [countF, hr, hc]⟩
        · rw [h2] at hc
          cases hc
      | panicked =>
        obtain ⟨k, vs, s3, hl, hk, hsd, hcase⟩ := ih s2 (Or.inr hc)
        refine ⟨k + 1, v1 :: vs, s3, by simp [hl], by omega, SeqDecode.cons hr hsd, ?_⟩
        rcases hcase with ⟨h1, h2⟩ | ⟨h1, _⟩
        · rw [h2] at hc
          cases hc
        · exact Or.inr ⟨h1, by simp only [countF, hr, hc]⟩
      | outOfFuel =>
        exact absurd hc (countF_resp_ne_oof n s2)
    | err =>
      exact ⟨0, [], s, rfl, by omega, SeqDecode.nil s,
        Or.inl ⟨hr, by simp only [countF, hr]⟩⟩
    | panicked =>
      exact ⟨0, [], s, rfl, by omega, SeqDecode.nil s,
        Or.inr ⟨hr, by simp only [countF, hr]⟩⟩
    | outOfFuel =>
      exact absurd hr (resp_ne_oof s)

/-- C4: for an Array input whose length line declares `n > 0` and leaves
remainder `r`, the decoder is nom's `count(resp, n)` starting at `r`: it
succeeds exactly when `n` values decode in strict sequence, each invocation
of the Type Dispatcher starting where the previous left off, and then
returns exactly those `n` values in invocation order; when one of the `n`
invocations fails, the whole decode has that inner failing outcome and no
partial Array value is produced. -/
theorem c4_array_sequential (s r : List Nat) (n : Nat) (hn : 0 < n)
    (hlen : length s = PR.ok r n) :
    (resp (42 :: s) =
      (match countF resp n r with
        | PR.ok r2 vs => PR.ok r2 (Resp.array (some vs))
        | PR.err => PR.err
        | PR.panicked => PR.panicked
        | PR.outOfFuel => PR.outOfFuel)) ∧
    (∀ (r2 : List Nat) (vs : List Resp),
      countF resp n r = PR.ok r2 vs ↔ (vs.length = n ∧ SeqDecode r vs r2)) ∧
    ((countF resp n r = PR.err ∨ countF resp n r = PR.panicked) →
      ∃ (k : Nat) (vs : List Resp) (s3 : List Nat),
        vs.length = k ∧ k < n ∧ SeqDecode r vs s3 ∧
          ((resp s3 = PR.err ∧ resp (42 :: s) = PR.err) ∨
            (resp s3 = PR.panicked ∧ resp (42 :: s) = PR.panicked))) := by
  have hn0 : n ≠ 0 := by omega
  have main : resp (42 :: s) =
      (match countF resp n r with
        | PR.ok r2 vs => PR.ok r2 (Resp.array (some vs))
        | PR.err => PR.err
        | PR.panicked => PR.panicked
        | PR.outOfFuel => PR.outOfFuel) := by
    rw [resp_array]
    unfold array
    simp only [hlen, if_neg hn0]
  refine ⟨main, fun r2 vs => countF_resp_ok_iff n r r2 vs, ?_⟩
  · intro h
    obtain ⟨k, vs, s3, hl, hk, hsd, hcase⟩ := countF_resp_fail n r h
    refine ⟨k, vs, s3, hl, hk, hsd, ?_⟩
    rcases hcase with ⟨h1, h2⟩ | ⟨h1, h2⟩
    · exact Or.inl ⟨h1, by rw [main, h2]⟩
    · exact Or.inr ⟨h1, by rw [main, h2]⟩

/-- C4 witness: the theorem applied at `*2\r\n:1\r\n:2\r\n` (count line `2`,
then two Integer elements), with the success case evaluated. -/
theorem c4_witness :
    0 < 2 ∧
    length [50, 13, 10, 58, 49, 13, 10, 58, 50, 13, 10] =
      PR.ok [58, 49, 13, 10, 58, 50, 13, 10] 2 ∧
    resp (42 :: [50, 13, 10, 58, 49, 13, 10, 58, 50, 13, 10]) =
      (match countF resp 2 [58, 49, 13, 10, 58, 50, 13, 10] with
        | PR.ok r2 vs => PR.ok r2 (Resp.array (some vs))
        | PR.err => PR.err
        | PR.panicked => PR.panicked
        | PR.outOfFuel => PR.outOfFuel) ∧
    resp (42 :: [50, 13, 10, 58, 49, 13, 10, 58, 50, 13, 10]) =
      PR.ok [] (Resp.array (some [Resp.integer 1, Resp.integer 2])) :=
  ⟨by decide, rfl,
    (c4_array_sequential [50, 13, 10, 58, 49, 13, 10, 58, 50, 13, 10]
        [58, 49, 13, 10, 58, 50, 13, 10] 2 (by decide) rfl).1,
    rfl⟩

/-- Array input nested `d` levels: `d` copies of `*1\r\n` around `:0\r\n`. -/
def nestInput : Nat → List Nat
  | 0 => [58, 48, 13, 10]
  | d + 1 => 42 :: 49 :: 13 :: 10 :: nestInput d

/-- Value of the `d`-level nested input: `d` singleton Arrays around
Integer 0. -/
def nestVal : Nat → Resp
  | 0 => Resp.integer 0
  | d + 1 => Resp.array (some [nestVal d])

theorem nest_decode : ∀ d, resp (nestInput d) = PR.ok [] (nestVal d) := by
  intro d
  induction d with
  | zero => rfl
  | succ d ih =>
    show resp (42 :: (49 :: 13 :: 10 :: nestInput d)) = PR.ok [] (nestVal (d + 1))
    rw [resp_array]
    unfold array
    have hlen : length (49 :: 13 :: 10 :: nestInput d) = PR.ok (nestInput d) 1 := by
      unfold length
      rw [show lineD (49 :: 13 :: 10 :: nestInput d) = some (nestInput d, [49]) from
        lineD_append [49] (nestInput d) (by decide) (by decide)]
      rfl
    simp only [hlen]
    simp [countF, ih, nestVal]

/-- No maximum nesting depth is configured anywhere in the code: every
depth of Array nesting decodes successfully. -/
def NoDepthLimit : Prop := ∀ d : Nat, resp (nestInput d) = PR.ok [] (nestVal d)

/-- C9 counterexample: the claim asserts some configured maximum depth `D`
exists whose exceeding input fails with NestingTooDeep; but for every `d`
the `d`-level nested input decodes successfully — no depth ever fails, so
no such `D` exists (the code has no depth parameter and no NestingTooDeep
error at all). -/
theorem c9_counterexample : NoDepthLimit := nest_decode

/-- C9 amended: the code configures no maximum nesting depth; an Array
input nested to any depth `d` decodes successfully (the only bound in a
real run is the host call stack, outside this model). -/
theorem c9_unbounded_nesting : ∀ d : Nat, resp (nestInput d) = PR.ok [] (nestVal d) :=
  nest_decode

/-- Wellformedness of a decoded value: a present Bulk String payload is
non-empty, a present Array element list is non-empty, recursively. -/
inductive RespWf : Resp → Prop where
  | simpleString (v : List Nat) : RespWf (Resp.simpleString v)
  | integer (i : Int) : RespWf (Resp.integer i)
  | error (v : List Nat) : RespWf (Resp.error v)
  | bulkNone : RespWf (Resp.bulkString none)
  | bulkSome (b : List Nat) : b ≠ [] → RespWf (Resp.bulkString (some b))
  | arrayNone : RespWf (Resp.array none)
  | arraySome (vs : List Resp) : vs ≠ [] → (∀ v ∈ vs, RespWf v) →
      RespWf (Resp.array (some vs))

theorem countF_mem {p : List Nat → PR Resp}
    (hp : ∀ s r v, p s = PR.ok r v → RespWf v) :
    ∀ n s r vs, countF p n s = PR.ok r vs → ∀ v ∈ vs, RespWf v := by
  intro n
  induction n with
  | zero =>
    intro s r vs h
    cases h
    simp
  | succ n ih =>
    intro s r vs h
    simp only [countF] at h
    split at h
    · rename_i r1 v1 hp1
      split at h
      · rename_i r2 vs2 hc
        cases h
        intro v hv
        rcases List.mem_cons.mp hv with rfl | hv2
        · exact hp _ _ _ hp1
        · exact ih _ _ _ hc v hv2
      · cases h
      · cases h
      · cases h
    · cases h
    · cases h
    · cases h

theorem respF_wf : ∀ f s r v, respF f s = PR.ok r v → RespWf v := by
  intro f
  induction f with
  | zero => intro s r v h; cases h
  | succ f ih =>
    intro s r v h
    rw [respF_succ] at h
    cases s with
    | nil => cases h
    | cons c input =>
      simp only [dispatch] at h
      split_ifs at h with h43 h58 h45 h36 h42
      · unfold simple_string at h
        split at h
        · cases h
          exact RespWf.simpleString _
        · cases h
      · unfold integer at h
        split at h
        · split at h
          · cases h
            exact RespWf.integer _
          · cases h
        · cases h
      · unfold error at h
        split at h
        · cases h
          exact RespWf.error _
        · cases h
      · unfold bulk_string at h
        split at h
        · rename_i r0 n heq
          by_cases hn : n = 0
          · rw [if_pos hn] at h
            cases h
            exact RespWf.bulkNone
          · rw [if_neg hn] at h
            by_cases hle : n ≤ r0.length
            · rw [if_pos hle] at h
              split at h
              · cases h
                refine RespWf.bulkSome _ ?_
                have hlen2 : (r0.take n).length = n := by
                  simp [List.length_take]
                  omega
                intro hnil
                apply hn
                rw [hnil] at hlen2
                simpa using hlen2.symm
              · cases h
            · rw [if_neg hle] at h
              cases h
        · cases h
        · cases h
        · cases h
      · unfold array at h
        split at h
        · rename_i r0 n heq
          by_cases hn : n = 0
          · rw [if_pos hn] at h
            cases h
            exact RespWf.arrayNone
          · rw [if_neg hn] at h
            split at h
            · rename_i r2 vs hc
              cases h
              refine RespWf.arraySome _ ?_ ?_
              · have hlen2 := countF_ok_length n r0 _ _ hc
                intro hnil
                apply hn
                rw [hnil] at hlen2
                simpa using hlen2.symm
              · exact countF_mem (fun s2 rr vv hh => ih s2 rr vv hh) n r0 _ _ hc
            · cases h
            · cases h
            · cases h
        · cases h
        · cases h
        · cases h

/-- C10: every value a successful decode returns is wellformed — a present
Bulk String payload and a present Array element list are never empty,
recursively through the tree — and for both `$` and `*` inputs the absent
(None) form is returned exactly when the declared length is zero. -/
theorem c10_no_empty_present_forms :
    (∀ (s r : List Nat) (v : Resp), resp s = PR.ok r v → RespWf v) ∧
    (∀ (s r : List Nat) (n : Nat), length s = PR.ok r n →
      ((resp (36 :: s) = PR.ok r (Resp.bulkString none) ↔ n = 0) ∧
        (resp (42 :: s) = PR.ok r (Resp.array none) ↔ n = 0))) := by
  refine ⟨fun s r v h => respF_wf _ s r v h, fun s r n hlen => ⟨?_, ?_⟩⟩
  · constructor
    · intro h
      by_contra hn
      rw [resp_bulk_string] at h
      unfold bulk_string at h
      simp only [hlen, if_neg hn] at h
      by_cases hle : n ≤ r.length
      · rw [if_pos hle] at h
        split at h
        · cases h
        · cases h
      · rw [if_neg hle] at h
        cases h
    · intro hn
      subst hn
      rw [resp_bulk_string]
      unfold bulk_string
      simp [hlen]
  · constructor
    · intro h
      by_contra hn
      rw [resp_array] at h
      unfold array at h
      simp only [hlen, if_neg hn] at h
      split at h
      · cases h
      · cases h
      · cases h
      · cases h
    · intro hn
      subst hn
      rw [resp_array]
      unfold array
      simp [hlen]

/-- C10 witness: the invariant applied at `$4\r\ngood\r\n`, and the
absent-form equivalences applied at length line `0`. -/
theorem c10_witness :
    RespWf (Resp.bulkString (some [103, 111, 111, 100])) ∧
      (resp (36 :: [48, 13, 10]) = PR.ok [] (Resp.bulkString none) ↔ (0 : Nat) = 0) ∧
      (resp (42 :: [48, 13, 10]) = PR.ok [] (Resp.array none) ↔ (0 : Nat) = 0) :=
  ⟨c10_no_empty_present_forms.1 [36, 52, 13, 10, 103, 111, 111, 100, 13, 10] []
      (Resp.bulkString (some [103, 111, 111, 100])) rfl,
    (c10_no_empty_present_forms.2 [48, 13, 10] [] 0 rfl).1,
    (c10_no_empty_present_forms.2 [48, 13, 10] [] 0 rfl).2⟩
